import Mathlib

/-!
Verification development for `net/base/lookup_string_in_fixed_set.h`:
a DAFSA (Deterministic Acyclic Finite State Automaton) based fixed-set
membership / prefix / suffix matcher.

Only the header (enum constants, signatures and documented contracts) is
present under `src/`; the function bodies live elsewhere in the source
tree.  Following the specification, the graph is modelled at the node
level (spec section 4.1 documents only the decoder's behavioural
contract and explicitly leaves the byte-level wire layout open), with
strings as lists of byte values (`Nat`).
-/

namespace DafsaSpec

/-- Result code constants, from the `enum` in
`src/net/base/lookup_string_in_fixed_set.h`. -/
def kDafsaNotFound : Int := -1

/-- Key is in the set (`src/net/base/lookup_string_in_fixed_set.h`). -/
def kDafsaFound : Int := 0

/-- Key excluded from set via exception
(`src/net/base/lookup_string_in_fixed_set.h`). -/
def kDafsaExceptionRule : Int := 1

/-- Key matched a wildcard rule
(`src/net/base/lookup_string_in_fixed_set.h`). -/
def kDafsaWildcardRule : Int := 2

/-- Key matched a private rule
(`src/net/base/lookup_string_in_fixed_set.h`). -/
def kDafsaPrivateRule : Int := 4

mutual

/-- Modelled from the spec: the conceptual node of spec section 3 (the
byte-level layout of `lookup_string_in_fixed_set.cc` is not under
`src/`; spec section 9 leaves it an open implementation choice and
section 4.1 documents only the decoder contract).
A *chain* node forces a single literal label character with an implied
successor; a *branch* node carries an optional terminal result code
(the position is accepting when present) and a list of
(character, child) edges.  A leaf with result code `k` is
`branch (some k)` with no edges.  Result codes are the small
non-negative integers (0-7) assigned by the offline compiler. -/
inductive DafsaNode : Type where
  | chain (c : Nat) (next : DafsaNode)
  | branch (accept : Option Nat) (edges : EdgeList)

/-- Modelled from the spec: the edge list of a branch node, a list of
(character, child node) pairs. -/
inductive EdgeList : Type where
  | nil
  | cons (c : Nat) (child : DafsaNode) (rest : EdgeList)

end

/-- Modelled from the spec: the compiled graph, an immutable byte
buffer.  `none` models a buffer with no decodable root (in particular
the empty buffer); `some t` a buffer whose root decodes to node `t`. -/
abbrev Graph : Type := Option DafsaNode

/-- Modelled from the spec: the cursor state of
`FixedSetIncrementalLookup` — the current automaton position, or `none`
when the graph is exhausted (the C++ member `bytes_` as an empty span;
the boolean discriminator `bytes_starts_with_label_character_` is
implicit in the node constructor). -/
abbrev FixedSetIncrementalLookup : Type := Option DafsaNode

/-- The exhausted cursor state (`bytes_` empty in the C++ object). -/
def exhausted : FixedSetIncrementalLookup := none

/-- Modelled from the spec: the constructor
`FixedSetIncrementalLookup(graph)` — position at the graph's root,
representing the empty input sequence; over a buffer with no root the
cursor is already exhausted. -/
def mkLookup (g : Graph) : FixedSetIncrementalLookup := g

/-- Find, among a branch's edges, the one matching a given character
(spec section 4.1 capability (b)); first match wins. -/
def findEdge : EdgeList → Nat → Option DafsaNode
  | .nil, _ => none
  | .cons c child rest, x => if x = c then some child else findEdge rest x

/-- Does some edge of the list carry character `x`? -/
def EdgeList.hasChar : EdgeList → Nat → Bool
  | .nil, _ => false
  | .cons c _ rest, x => x == c || rest.hasChar x

/-- Modelled from the spec: `FixedSetIncrementalLookup::Advance` (spec
section 4.2).  Exhausted: returns `false` and stays exhausted.  Chain
node: on a literal match advances to the implied successor and returns
`true`, on mismatch becomes exhausted and returns `false`.  Branch
node: scans the edges for the input character; on a hit advances to
that child and returns `true`, on a miss becomes exhausted and returns
`false`.  Total over every input byte value. -/
def Advance : FixedSetIncrementalLookup → Nat → FixedSetIncrementalLookup × Bool
  | none, _ => (none, false)
  | some (.chain c next), x => if x = c then (some next, true) else (none, false)
  | some (.branch _ edges), x =>
    match findEdge edges x with
    | some child => (some child, true)
    | none => (none, false)

/-- Modelled from the spec:
`FixedSetIncrementalLookup::GetResultForCurrentSequence` (spec section
4.2): the result code when the current position is accepting (a branch
position carrying a terminal code), else `kDafsaNotFound`; exhausted
and mid-label positions are not accepting. -/
def GetResultForCurrentSequence : FixedSetIncrementalLookup → Int
  | none => kDafsaNotFound
  | some (.chain _ _) => kDafsaNotFound
  | some (.branch none _) => kDafsaNotFound
  | some (.branch (some k) _) => (k : Int)

/-- The walk of `LookupStringInFixedSet`: advance once per character,
short-circuiting to `kDafsaNotFound` on a failed step. -/
def lookupGo : FixedSetIncrementalLookup → List Nat → Int
  | cur, [] => GetResultForCurrentSequence cur
  | cur, c :: cs =>
    match Advance cur c with
    | (cur2, true) => lookupGo cur2 cs
    | (_, false) => kDafsaNotFound

/-- Modelled from the spec: `LookupStringInFixedSet(graph, key)` (spec
section 4.3; body not under `src/`) — build one cursor, advance once
per character of `key` in order; if any advance returns `false` before
the key is consumed return `kDafsaNotFound`, else return
`GetResultForCurrentSequence`. -/
def LookupStringInFixedSet (g : Graph) (key : List Nat) : Int :=
  lookupGo (mkLookup g) key

/-- The byte value of the label separator character, a dot. -/
def dotByte : Nat := 46

/-- Label-boundary test during the reversed walk (spec section 4.4):
after consuming a character, the consumed suffix of the original host
is boundary-aligned exactly when the remaining reversed input is empty
(the suffix is the whole host) or its next character is a dot. -/
def boundaryOkRest : List Nat → Bool
  | [] => true
  | c :: _ => c == dotByte

/-- Does result code `v` include the private bit `kDafsaPrivateRule`? -/
def hasPrivateBit (v : Int) : Bool :=
  decide (0 ≤ v) && (v.toNat &&& 4 != 0)

/-- The walk of `LookupSuffixInReversedSet` over the reversed host
(spec section 4.4): `cur` is the cursor, the second argument the
remaining reversed input, `k` the number of characters consumed so far,
`best` the best (result, length) so far.  A failed advance ends the
walk with `best`; an accepting, boundary-aligned position updates
`best` unless its code is private and `includePrivate` is false, in
which case it is skipped and the walk continues. -/
def lookupSuffixGo (includePrivate : Bool) :
    FixedSetIncrementalLookup → List Nat → Nat → Int × Nat → Int × Nat
  | _, [], _, best => best
  | cur, c :: rest, k, best =>
    match Advance cur c with
    | (cur2, true) =>
      let v := GetResultForCurrentSequence cur2
      let best2 :=
        if boundaryOkRest rest = true ∧ v ≠ kDafsaNotFound ∧
            (includePrivate = true ∨ hasPrivateBit v = false) then
          (v, k + 1)
        else best
      lookupSuffixGo includePrivate cur2 rest (k + 1) best2
    | (_, false) => best

/-- Modelled from the spec:
`LookupSuffixInReversedSet(graph, include_private, host, &suffix_length)`
(spec section 4.4; body not under `src/`) — feed `host` to a cursor in
reverse order, keeping the best boundary-aligned accepting match; the
out-parameter `suffix_length` is the second component of the returned
pair (`(kDafsaNotFound, 0)` when no match). -/
def LookupSuffixInReversedSet (g : Graph) (includePrivate : Bool)
    (host : List Nat) : Int × Nat :=
  lookupSuffixGo includePrivate (mkLookup g) host.reverse 0 (kDafsaNotFound, 0)

mutual

/-- The compiled set denoted by a node: the list of (string, result
code) pairs it accepts.  This is the reference "fixed set" the graph
was compiled from. -/
def DafsaNode.lang : DafsaNode → List (List Nat × Nat)
  | .chain c next => next.lang.map (fun p => (c :: p.1, p.2))
  | .branch accept edges =>
    (match accept with
     | some k => [([], k)]
     | none => []) ++ edges.lang

/-- The contribution of an edge list to the compiled set. -/
def EdgeList.lang : EdgeList → List (List Nat × Nat)
  | .nil => []
  | .cons c child rest =>
    child.lang.map (fun p => (c :: p.1, p.2)) ++ rest.lang

end

/-- The compiled set of a graph; a buffer with no root denotes the
empty set. -/
def graphLang : Graph → List (List Nat × Nat)
  | none => []
  | some t => t.lang

mutual

/-- Determinism invariant of spec section 3: for any position and any
input character there is at most one valid transition, i.e. every
branch's edge characters are pairwise distinct, recursively. -/
def DafsaNode.wf : DafsaNode → Bool
  | .chain _ next => next.wf
  | .branch _ edges => edges.wf

/-- Edge-list part of the determinism invariant. -/
def EdgeList.wf : EdgeList → Bool
  | .nil => true
  | .cons c child rest => !rest.hasChar c && child.wf && rest.wf

end

/-- Determinism invariant at the graph level. -/
def graphWf : Graph → Bool
  | none => true
  | some t => t.wf

/-- Is the edge list empty? -/
def EdgeList.isNil : EdgeList → Bool
  | .nil => true
  | .cons _ _ _ => false

mutual

/-- Productivity invariant of a compiled DAFSA: every state has at
least one accepted continuation (the offline compiler never emits dead
states — every string in the graph comes from the compiled set). -/
def DafsaNode.productive : DafsaNode → Bool
  | .chain _ next => next.productive
  | .branch accept edges =>
    (accept.isSome || !edges.isNil) && edges.allProductive

/-- Every child of the edge list is productive. -/
def EdgeList.allProductive : EdgeList → Bool
  | .nil => true
  | .cons _ child rest => child.productive && rest.allProductive

end

mutual

/-- All label characters of the node are ASCII (below 128); models a
graph compiled from ASCII-only strings. -/
def DafsaNode.asciiOnly : DafsaNode → Bool
  | .chain c next => decide (c < 128) && next.asciiOnly
  | .branch _ edges => edges.asciiOnly

/-- All edge characters and children are ASCII. -/
def EdgeList.asciiOnly : EdgeList → Bool
  | .nil => true
  | .cons c child rest =>
    decide (c < 128) && child.asciiOnly && rest.asciiOnly

end

/-- All label characters of the cursor's residual graph are ASCII; an
exhausted cursor qualifies vacuously. -/
def cursorAscii : FixedSetIncrementalLookup → Bool
  | none => true
  | some t => t.asciiOnly

/-- Run a cursor over a whole character sequence, keeping only the
final state. -/
def runCursor : FixedSetIncrementalLookup → List Nat → FixedSetIncrementalLookup
  | cur, [] => cur
  | cur, c :: cs => runCursor (Advance cur c).1 cs

/-- The list of boolean results of successive `Advance` calls over a
character sequence. -/
def advanceResults : FixedSetIncrementalLookup → List Nat → List Bool
  | _, [] => []
  | cur, c :: cs => (Advance cur c).2 :: advanceResults (Advance cur c).1 cs

/-- Is `s` a viable sequence, i.e. a prefix of at least one string of
the node's compiled set (whether or not a complete member)? -/
def hasPrefixIn (t : DafsaNode) (s : List Nat) : Bool :=
  t.lang.any (fun p => List.isPrefixOf s p.1)

/-- Is `s` a prefix of a string contributed by the edge list? -/
def hasPrefixInE (es : EdgeList) (s : List Nat) : Bool :=
  es.lang.any (fun p => List.isPrefixOf s p.1)

/-- One step of the claim-side incremental walk of
`LookupStringInFixedSet`: a failed cursor is represented by `none`. -/
def lookupStep :
    Option FixedSetIncrementalLookup → Nat → Option FixedSetIncrementalLookup
  | none, _ => none
  | some cur, c =>
    match Advance cur c with
    | (cur2, true) => some cur2
    | (_, false) => none

/-- The composition the claim describes for `LookupStringInFixedSet`:
build one cursor, advance once per character of `key` in order,
`kDafsaNotFound` if any advance returned `false` before `key` was
consumed, else `GetResultForCurrentSequence`. -/
def lookupByIncrementalWalk (g : Graph) (key : List Nat) : Int :=
  match key.foldl lookupStep (some (mkLookup g)) with
  | some cur => GetResultForCurrentSequence cur
  | none => kDafsaNotFound

/-- The boundary-aligned accepting matches met along the reversed walk,
in order of increasing length, with their result codes; the list stops
at the first failed advance. -/
def suffixMatchesGo :
    FixedSetIncrementalLookup → List Nat → Nat → List (Int × Nat)
  | _, [], _ => []
  | cur, c :: rest, k =>
    match Advance cur c with
    | (cur2, true) =>
      let v := GetResultForCurrentSequence cur2
      (if boundaryOkRest rest = true ∧ v ≠ kDafsaNotFound then
        [(v, k + 1)]
       else []) ++ suffixMatchesGo cur2 rest (k + 1)
    | (_, false) => []

/-- All boundary-aligned accepting matches of the reversed-set walk
over `host`, shortest first. -/
def suffixMatches (g : Graph) (host : List Nat) : List (Int × Nat) :=
  suffixMatchesGo (mkLookup g) host.reverse 0

end DafsaSpec

namespace DafsaSpec

/-! ### Basic cursor lemmas -/

/-- A failed `Advance` leaves the cursor exhausted. -/
theorem Advance_false_fst (cur : FixedSetIncrementalLookup) (c : Nat)
    (h : (Advance cur c).2 = false) : (Advance cur c).1 = none := by
  match cur with
  | none => rfl
  | some (.chain ch next) =>
    by_cases hc : c = ch
    · simp [Advance, hc] at h
    · simp [Advance, hc]
  | some (.branch a es) =>
    cases hf : findEdge es c with
    | none => simp [Advance, hf]
    | some child => simp [Advance, hf] at h

/-- A successful `Advance` lands on a live node. -/
theorem Advance_true_some (cur : FixedSetIncrementalLookup) (c : Nat)
    (h : (Advance cur c).2 = true) :
    ∃ u, Advance cur c = (some u, true) := by
  match cur with
  | none => simp [Advance] at h
  | some (.chain ch next) =>
    by_cases hc : c = ch
    · exact ⟨next, by simp [Advance, hc]⟩
    · simp [Advance, hc] at h
  | some (.branch a es) =>
    cases hf : findEdge es c with
    | none => simp [Advance, hf] at h
    | some child => exact ⟨child, by simp [Advance, hf]⟩

/-- An exhausted cursor stays exhausted along any sequence. -/
theorem runCursor_none (p : List Nat) : runCursor none p = none := by
  induction p with
  | nil => rfl
  | cons c cs ih => simpa [runCursor, Advance] using ih

/-- Running a cursor over an appended sequence is running it over the
two parts in turn. -/
theorem runCursor_append (cur : FixedSetIncrementalLookup) (p q : List Nat) :
    runCursor cur (p ++ q) = runCursor (runCursor cur p) q := by
  induction p generalizing cur with
  | nil => rfl
  | cons c cs ih => simpa [runCursor] using ih (Advance cur c).1

/-- The advance results over an appended sequence split at the join. -/
theorem advanceResults_append (cur : FixedSetIncrementalLookup) (p q : List Nat) :
    advanceResults cur (p ++ q) =
      advanceResults cur p ++ advanceResults (runCursor cur p) q := by
  induction p generalizing cur with
  | nil => rfl
  | cons c cs ih => simpa [advanceResults, runCursor] using ih (Advance cur c).1

/-- One advance result per input character. -/
theorem advanceResults_length (cur : FixedSetIncrementalLookup) (p : List Nat) :
    (advanceResults cur p).length = p.length := by
  induction p generalizing cur with
  | nil => rfl
  | cons c cs ih => simpa [advanceResults] using ih (Advance cur c).1

end DafsaSpec

namespace DafsaSpec

/-! ### Concrete graphs used by the witnesses -/

/-- The compiled set `{"a" ↦ 3, "ab" ↦ 0}` (bytes 97, 98). -/
def tAB : DafsaNode :=
  .chain 97 (.branch (some 3) (.cons 98 (.branch (some 0) .nil) .nil))

/-- The reversed compiled set for `{"com" ↦ 0}`: the single reversed
string `"moc"` (bytes 109, 111, 99). -/
def gMoc : DafsaNode :=
  .chain 109 (.chain 111 (.chain 99 (.branch (some 0) .nil)))

/-- The reversed compiled set for `{"com" ↦ 0, "foo.com" ↦ 4}` (the
second entry carries the private bit): reversed strings `"moc"` and
`"moc.oof"`. -/
def gPriv : DafsaNode :=
  .chain 109 (.chain 111 (.chain 99 (.branch (some 0)
    (.cons 46 (.chain 111 (.chain 111 (.chain 102 (.branch (some 4) .nil))))
      .nil))))

/-- The bytes of `"foo.com"`. -/
def fooComBytes : List Nat := [102, 111, 111, 46, 99, 111, 109]

/-- The bytes of `"fooicom"`. -/
def fooIComBytes : List Nat := [102, 111, 111, 105, 99, 111, 109]

/-- The bytes of `"bar.foo.com"`. -/
def barFooComBytes : List Nat :=
  [98, 97, 114, 46, 102, 111, 111, 46, 99, 111, 109]

/-! ### C5: the exhausted state is absorbing -/

/-- C5.  The exhausted cursor state is absorbing: whenever `Advance`
returns `false` the cursor is left exhausted, every subsequent
`Advance` on an exhausted cursor returns `false` and leaves the state
unchanged, and `GetResultForCurrentSequence` of an exhausted cursor is
`kDafsaNotFound`. -/
theorem exhausted_state_absorbing (cur : FixedSetIncrementalLookup) (c : Nat)
    (h : (Advance cur c).2 = false) :
    (Advance cur c).1 = exhausted ∧
      (∀ c' : Nat, Advance exhausted c' = (exhausted, false)) ∧
      GetResultForCurrentSequence exhausted = kDafsaNotFound :=
  ⟨Advance_false_fst cur c h, fun _ => rfl, rfl⟩

/-- Witness for C5 at a concrete failing step: advancing the `{"a","ab"}`
graph's root with byte 99 fails. -/
theorem exhausted_state_absorbing_witness :
    (Advance (some tAB) 99).1 = exhausted ∧
      (∀ c' : Nat, Advance exhausted c' = (exhausted, false)) ∧
      GetResultForCurrentSequence exhausted = kDafsaNotFound :=
  exhausted_state_absorbing (some tAB) 99 (by decide)

/-! ### C6: whole-string lookup is the incremental-cursor composition -/

/-- A failed incremental walk stays failed. -/
theorem foldl_lookupStep_none (key : List Nat) :
    key.foldl lookupStep none = none := by
  induction key with
  | nil => rfl
  | cons c cs ih => simpa [lookupStep] using ih

/-- The short-circuiting lookup walk agrees with the `Option`-tracked
incremental fold. -/
theorem lookupGo_eq_foldl (key : List Nat) (cur : FixedSetIncrementalLookup) :
    lookupGo cur key =
      (match key.foldl lookupStep (some cur) with
       | some cur2 => GetResultForCurrentSequence cur2
       | none => kDafsaNotFound) := by
  induction key generalizing cur with
  | nil => rfl
  | cons c cs ih =>
    rcases h : Advance cur c with ⟨cur2, b⟩
    cases b with
    | true => simpa [lookupGo, lookupStep, h] using ih cur2
    | false => simp [lookupGo, lookupStep, h, foldl_lookupStep_none]

/-- C6.  `LookupStringInFixedSet` is exactly the composition over the
incremental cursor: one cursor, one `Advance` per key character in
order, `kDafsaNotFound` on the first failed advance, else
`GetResultForCurrentSequence`. -/
theorem lookup_is_incremental_walk (g : Graph) (key : List Nat) :
    LookupStringInFixedSet g key = lookupByIncrementalWalk g key :=
  lookupGo_eq_foldl key (mkLookup g)

/-! ### C8: copy independence of cursors -/

/-- C8.  Copy independence: a cursor saved after consuming prefix `p`
and then fed a continuation behaves exactly like a fresh cursor fed
`p` followed by that continuation — for the final state, for every
intermediate `Advance` result, and for the final result query — and
this holds for both of two divergent continuations, so operations on
one copy never affect the other. -/
theorem cursor_copy_independent (g : Graph) (p q1 q2 : List Nat) :
    (runCursor (runCursor (mkLookup g) p) q1 = runCursor (mkLookup g) (p ++ q1) ∧
      advanceResults (runCursor (mkLookup g) p) q1 =
        (advanceResults (mkLookup g) (p ++ q1)).drop p.length ∧
      GetResultForCurrentSequence (runCursor (runCursor (mkLookup g) p) q1) =
        GetResultForCurrentSequence (runCursor (mkLookup g) (p ++ q1))) ∧
    (runCursor (runCursor (mkLookup g) p) q2 = runCursor (mkLookup g) (p ++ q2) ∧
      advanceResults (runCursor (mkLookup g) p) q2 =
        (advanceResults (mkLookup g) (p ++ q2)).drop p.length ∧
      GetResultForCurrentSequence (runCursor (runCursor (mkLookup g) p) q2) =
        GetResultForCurrentSequence (runCursor (mkLookup g) (p ++ q2))) := by
  have key : ∀ q : List Nat,
      runCursor (runCursor (mkLookup g) p) q = runCursor (mkLookup g) (p ++ q) ∧
      advanceResults (runCursor (mkLookup g) p) q =
        (advanceResults (mkLookup g) (p ++ q)).drop p.length ∧
      GetResultForCurrentSequence (runCursor (runCursor (mkLookup g) p) q) =
        GetResultForCurrentSequence (runCursor (mkLookup g) (p ++ q)) := by
    intro q
    have h1 := (runCursor_append (mkLookup g) p q).symm
    have h2 : advanceResults (runCursor (mkLookup g) p) q =
        (advanceResults (mkLookup g) (p ++ q)).drop p.length := by
      rw [advanceResults_append, List.drop_append_of_le_length (by
        simp [advanceResults_length])]
      simp [advanceResults_length]
    exact ⟨h1, h2, by rw [h1]⟩
  exact ⟨key q1, key q2⟩

/-! ### C9: the empty graph buffer -/

/-- C9.  A cursor constructed over an empty graph buffer is already
exhausted: every `Advance` returns `false` leaving it exhausted,
`GetResultForCurrentSequence` returns `kDafsaNotFound`, every
whole-string lookup returns `kDafsaNotFound`, and every suffix lookup
returns `(kDafsaNotFound, 0)`. -/
theorem empty_graph_exhausted :
    mkLookup (none : Graph) = exhausted ∧
      (∀ c : Nat, Advance (mkLookup (none : Graph)) c = (exhausted, false)) ∧
      GetResultForCurrentSequence (mkLookup (none : Graph)) = kDafsaNotFound ∧
      (∀ key : List Nat, LookupStringInFixedSet none key = kDafsaNotFound) ∧
      (∀ (b : Bool) (host : List Nat),
        LookupSuffixInReversedSet none b host = (kDafsaNotFound, 0)) := by
  refine ⟨rfl, fun _ => rfl, rfl, ?_, ?_⟩
  · intro key
    cases key with
    | nil => rfl
    | cons c cs => rfl
  · intro b host
    unfold LookupSuffixInReversedSet
    cases host.reverse with
    | nil => rfl
    | cons c rest => rfl

/-! ### C10: non-ASCII input always fails on an ASCII-only graph -/

/-- On an ASCII-only edge list, no edge matches a byte with the high
bit set. -/
theorem findEdge_ascii_none :
    ∀ (es : EdgeList) (c : Nat), es.asciiOnly = true → 128 ≤ c →
      findEdge es c = none
  | .nil, _, _, _ => rfl
  | .cons c' child rest, c, hA, hc => by
    simp only [EdgeList.asciiOnly, Bool.and_eq_true, decide_eq_true_eq] at hA
    have hne : c ≠ c' := by omega
    simp [findEdge, hne, findEdge_ascii_none rest c hA.2 hc]

/-- An ASCII-only edge list has ASCII-only children. -/
theorem findEdge_ascii_child :
    ∀ (es : EdgeList) (c : Nat) (child : DafsaNode), es.asciiOnly = true →
      findEdge es c = some child → child.asciiOnly = true
  | .nil, c, child, _, hf => by simp [findEdge] at hf
  | .cons c' ch rest, c, child, hA, hf => by
    simp only [EdgeList.asciiOnly, Bool.and_eq_true, decide_eq_true_eq] at hA
    by_cases hcc : c = c'
    · simp only [findEdge, if_pos hcc] at hf
      cases hf
      exact hA.1.2
    · simp only [findEdge, if_neg hcc] at hf
      exact findEdge_ascii_child rest c child hA.2 hf

/-- Advancing on a non-ASCII byte from an ASCII-only cursor fails. -/
theorem Advance_non_ascii (cur : FixedSetIncrementalLookup) (c : Nat)
    (hA : cursorAscii cur = true) (hc : 128 ≤ c) :
    Advance cur c = (none, false) := by
  match cur with
  | none => rfl
  | some (.chain ch next) =>
    simp only [cursorAscii, DafsaNode.asciiOnly, Bool.and_eq_true,
      decide_eq_true_eq] at hA
    have hne : c ≠ ch := by omega
    simp [Advance, hne]
  | some (.branch a es) =>
    simp only [cursorAscii, DafsaNode.asciiOnly] at hA
    simp [Advance, findEdge_ascii_none es c hA hc]

/-- Advancing preserves the ASCII-only property of the cursor's
residual graph. -/
theorem Advance_preserves_ascii (cur : FixedSetIncrementalLookup) (c : Nat)
    (hA : cursorAscii cur = true) : cursorAscii (Advance cur c).1 = true := by
  match cur with
  | none => rfl
  | some (.chain ch next) =>
    simp only [cursorAscii, DafsaNode.asciiOnly, Bool.and_eq_true,
      decide_eq_true_eq] at hA
    by_cases hcc : c = ch
    · simpa [Advance, hcc, cursorAscii] using hA.2
    · simp [Advance, hcc, cursorAscii]
  | some (.branch a es) =>
    simp only [cursorAscii, DafsaNode.asciiOnly] at hA
    cases hf : findEdge es c with
    | none => simp [Advance, hf, cursorAscii]
    | some child =>
      simpa [Advance, hf, cursorAscii] using findEdge_ascii_child es c child hA hf

/-- Every cursor reached from an ASCII-only root is ASCII-only. -/
theorem runCursor_ascii (cur : FixedSetIncrementalLookup) (p : List Nat)
    (hA : cursorAscii cur = true) : cursorAscii (runCursor cur p) = true := by
  induction p generalizing cur with
  | nil => exact hA
  | cons c cs ih =>
    exact ih (Advance cur c).1 (Advance_preserves_ascii cur c hA)

/-- C10.  `Advance` is a total function of the input byte, and on any
cursor reached from a graph compiled from ASCII-only strings, a
non-ASCII input byte (high bit set) returns `false` and exhausts the
cursor — only ASCII characters can ever result in matches. -/
theorem non_ascii_never_matches (t : DafsaNode) (p : List Nat) (c : Nat)
    (hA : t.asciiOnly = true) (hc : 128 ≤ c) :
    Advance (runCursor (some t) p) c = (exhausted, false) :=
  Advance_non_ascii (runCursor (some t) p) c
    (runCursor_ascii (some t) p (by simpa [cursorAscii] using hA)) hc

/-- Witness for C10: the `{"a","ab"}` graph is ASCII-only and rejects
byte 200 after consuming `"a"`. -/
theorem non_ascii_never_matches_witness :
    Advance (runCursor (some tAB) [97]) 200 = (exhausted, false) :=
  non_ascii_never_matches tAB [97] 200 (by decide) (by decide)

end DafsaSpec

namespace DafsaSpec

/-! ### Language lemmas for the compiled set -/

/-- Strings contributed by an edge list are never empty. -/
theorem edge_lang_ne_nil :
    ∀ (es : EdgeList) (w : List Nat) (k : Nat), (w, k) ∈ es.lang → w ≠ []
  | .nil, w, k, h => by simp [EdgeList.lang] at h
  | .cons c child rest, w, k, h => by
    simp only [EdgeList.lang, List.mem_append, List.mem_map] at h
    rcases h with ⟨p, _, hp⟩ | h
    · intro hw
      subst hw
      have := congrArg Prod.fst hp
      simp at this
    · exact edge_lang_ne_nil rest w k h

/-- Membership through a found edge lifts into the edge list's
language. -/
theorem findEdge_lang_lift :
    ∀ (es : EdgeList) (c : Nat) (child : DafsaNode),
      findEdge es c = some child →
      ∀ (w : List Nat) (k : Nat), (w, k) ∈ child.lang →
        (c :: w, k) ∈ es.lang
  | .nil, c, child, hf, _, _, _ => by simp [findEdge] at hf
  | .cons c' ch rest, c, child, hf, w, k, hm => by
    simp only [EdgeList.lang, List.mem_append, List.mem_map]
    by_cases hcc : c = c'
    · simp only [findEdge, if_pos hcc] at hf
      cases hf
      exact Or.inl ⟨(w, k), hm, by simp [hcc]⟩
    · simp only [findEdge, if_neg hcc] at hf
      exact Or.inr (findEdge_lang_lift rest c child hf w k hm)

/-- A string of the edge list's language starting with `c` forces some
edge to carry `c`. -/
theorem hasChar_of_mem :
    ∀ (es : EdgeList) (c : Nat) (w : List Nat) (k : Nat),
      (c :: w, k) ∈ es.lang → es.hasChar c = true
  | .nil, c, w, k, h => by simp [EdgeList.lang] at h
  | .cons c' ch rest, c, w, k, h => by
    simp only [EdgeList.lang, List.mem_append, List.mem_map] at h
    simp only [EdgeList.hasChar, Bool.or_eq_true, beq_iff_eq]
    rcases h with ⟨p, _, hp⟩ | h
    · exact Or.inl (by
        have := congrArg Prod.fst hp
        simp at this
        exact this.1.symm)
    · exact Or.inr (hasChar_of_mem rest c w k h)

/-- Some edge carries `c` exactly when `findEdge` finds one. -/
theorem hasChar_findEdge :
    ∀ (es : EdgeList) (c : Nat), es.hasChar c = true →
      ∃ child, findEdge es c = some child
  | .nil, c, h => by simp [EdgeList.hasChar] at h
  | .cons c' ch rest, c, h => by
    by_cases hcc : c = c'
    · exact ⟨ch, by simp [findEdge, hcc]⟩
    · simp only [EdgeList.hasChar, Bool.or_eq_true, beq_iff_eq] at h
      rcases h with h | h
      · exact absurd h hcc
      · simpa [findEdge, hcc] using hasChar_findEdge rest c h

/-- A found edge of a deterministic edge list is well formed. -/
theorem findEdge_wf_child :
    ∀ (es : EdgeList) (c : Nat) (child : DafsaNode), es.wf = true →
      findEdge es c = some child → child.wf = true
  | .nil, c, child, _, hf => by simp [findEdge] at hf
  | .cons c' ch rest, c, child, hwf, hf => by
    simp only [EdgeList.wf, Bool.and_eq_true] at hwf
    by_cases hcc : c = c'
    · simp only [findEdge, if_pos hcc] at hf
      cases hf
      exact hwf.1.2
    · simp only [findEdge, if_neg hcc] at hf
      exact findEdge_wf_child rest c child hwf.2 hf

/-- Determinism: in a well-formed edge list, a language string starting
with `c` passes through exactly the edge `findEdge` selects. -/
theorem findEdge_lang_split :
    ∀ (es : EdgeList) (c : Nat) (cs : List Nat) (k : Nat), es.wf = true →
      (c :: cs, k) ∈ es.lang →
      ∃ child, findEdge es c = some child ∧ (cs, k) ∈ child.lang
  | .nil, c, cs, k, _, h => by simp [EdgeList.lang] at h
  | .cons c' ch rest, c, cs, k, hwf, h => by
    simp only [EdgeList.wf, Bool.and_eq_true, Bool.not_eq_true'] at hwf
    simp only [EdgeList.lang, List.mem_append, List.mem_map] at h
    rcases h with ⟨p, hp, hpe⟩ | h
    · have hc : c = c' ∧ p.1 = cs ∧ p.2 = k := by
        have h1 := congrArg Prod.fst hpe
        have h2 := congrArg Prod.snd hpe
        simp at h1 h2
        exact ⟨h1.1.symm, h1.2, h2⟩
      refine ⟨ch, by simp [findEdge, hc.1], ?_⟩
      have : p = (cs, k) := Prod.ext hc.2.1 hc.2.2
      simpa [this] using hp
    · have hch : rest.hasChar c = true := hasChar_of_mem rest c cs k h
      have hcc : c ≠ c' := by
        intro he
        rw [he] at hch
        rw [hch] at hwf
        exact absurd hwf.1.1 (by simp)
      rcases findEdge_lang_split rest c cs k hwf.2 h with ⟨child, hf, hm⟩
      exact ⟨child, by simp [findEdge, hcc, hf], hm⟩

/-- The lookup walk over an exhausted cursor never finds anything. -/
theorem lookupGo_none_eq : ∀ s : List Nat, lookupGo none s = kDafsaNotFound
  | [] => rfl
  | _ :: _ => rfl

/-- A lookup result is `kDafsaNotFound` or a natural result code. -/
theorem lookupGo_codomain (s : List Nat) :
    ∀ cur : FixedSetIncrementalLookup,
      lookupGo cur s = kDafsaNotFound ∨ ∃ k : Nat, lookupGo cur s = (k : Int) := by
  induction s with
  | nil =>
    intro cur
    match cur with
    | none => exact Or.inl rfl
    | some (.chain _ _) => exact Or.inl rfl
    | some (.branch none _) => exact Or.inl rfl
    | some (.branch (some k) _) => exact Or.inr ⟨k, rfl⟩
  | cons c cs ih =>
    intro cur
    rcases h : Advance cur c with ⟨cur2, b⟩
    cases b with
    | true => simpa [lookupGo, h] using ih cur2
    | false => simp [lookupGo, h]

/-- Soundness: a successful lookup walk exhibits a member of the
compiled set. -/
theorem lookupGo_sound (s : List Nat) :
    ∀ (t : DafsaNode) (k : Nat), lookupGo (some t) s = (k : Int) →
      (s, k) ∈ t.lang := by
  induction s with
  | nil =>
    intro t k h
    match t with
    | .chain _ _ =>
      simp [lookupGo, GetResultForCurrentSequence, kDafsaNotFound] at h
    | .branch none _ =>
      simp [lookupGo, GetResultForCurrentSequence, kDafsaNotFound] at h
    | .branch (some k') es =>
      simp only [lookupGo, GetResultForCurrentSequence, Nat.cast_inj] at h
      simp [DafsaNode.lang, h]
  | cons c cs ih =>
    intro t k h
    match t with
    | .chain ch next =>
      by_cases hcc : c = ch
      · have hm := ih next k (by simpa [lookupGo, Advance, hcc] using h)
        subst hcc
        simp only [DafsaNode.lang, List.mem_map]
        exact ⟨(cs, k), hm, rfl⟩
      · simp [lookupGo, Advance, hcc, kDafsaNotFound] at h
    | .branch a es =>
      cases hf : findEdge es c with
      | none =>
        simp [lookupGo, Advance, hf, kDafsaNotFound] at h
      | some child =>
        have hm := ih child k (by simpa [lookupGo, Advance, hf] using h)
        have := findEdge_lang_lift es c child hf cs k hm
        match a with
        | none => simpa [DafsaNode.lang] using this
        | some k' => simp [DafsaNode.lang, this]

/-- Completeness: the lookup walk finds every member of the compiled
set, under the determinism invariant. -/
theorem lookupGo_complete (s : List Nat) :
    ∀ (t : DafsaNode) (k : Nat), t.wf = true → (s, k) ∈ t.lang →
      lookupGo (some t) s = (k : Int) := by
  induction s with
  | nil =>
    intro t k hwf hm
    match t with
    | .chain ch next =>
      simp only [DafsaNode.lang, List.mem_map] at hm
      rcases hm with ⟨p, _, hp⟩
      have := congrArg Prod.fst hp
      simp at this
    | .branch a es =>
      have hne : ([] : List Nat) ≠ [] → False := fun h => h rfl
      simp only [DafsaNode.lang, List.mem_append] at hm
      rcases hm with hm | hm
      · match a with
        | some k' =>
          simp only [List.mem_singleton, Prod.mk.injEq] at hm
          simp [lookupGo, GetResultForCurrentSequence, hm.2]
        | none => simp at hm
      · exact absurd rfl (edge_lang_ne_nil es [] k hm)
  | cons c cs ih =>
    intro t k hwf hm
    match t with
    | .chain ch next =>
      simp only [DafsaNode.lang, List.mem_map] at hm
      rcases hm with ⟨p, hp, hpe⟩
      have h1 := congrArg Prod.fst hpe
      have h2 := congrArg Prod.snd hpe
      simp at h1 h2
      have hp' : p = (cs, k) := Prod.ext h1.2 h2
      subst hp'
      have := ih next k (by simpa [DafsaNode.wf] using hwf) hp
      simpa [lookupGo, Advance, h1.1.symm] using this
    | .branch a es =>
      have hm' : (c :: cs, k) ∈ es.lang := by
        simp only [DafsaNode.lang, List.mem_append] at hm
        rcases hm with hm | hm
        · match a with
          | some k' => simp at hm
          | none => simp at hm
        · exact hm
      rcases findEdge_lang_split es c cs k (by simpa [DafsaNode.wf] using hwf) hm'
        with ⟨child, hf, hmc⟩
      have := ih child k (findEdge_wf_child es c child
        (by simpa [DafsaNode.wf] using hwf) hf) hmc
      simpa [lookupGo, Advance, hf] using this

/-! ### C1: lookup agrees with the compiled set -/

/-- C1.  For every string of the compiled set with result code `k`,
`LookupStringInFixedSet` returns `k`; for every string not in the set
it returns `kDafsaNotFound`.  (The determinism invariant of spec
section 3 is assumed of the compiled graph.) -/
theorem lookup_matches_compiled_set (g : Graph) (s : List Nat)
    (hwf : graphWf g = true) :
    (∀ k : Nat, (s, k) ∈ graphLang g →
      LookupStringInFixedSet g s = (k : Int)) ∧
    ((∀ k : Nat, (s, k) ∉ graphLang g) →
      LookupStringInFixedSet g s = kDafsaNotFound) := by
  constructor
  · intro k hm
    match g with
    | none => simp [graphLang] at hm
    | some t => exact lookupGo_complete s t k (by simpa [graphWf] using hwf) hm
  · intro hall
    match g with
    | none => exact lookupGo_none_eq s
    | some t =>
      rcases lookupGo_codomain s (some t) with h | ⟨k, h⟩
      · exact h
      · exact absurd (lookupGo_sound s t k h) (hall k)

/-- Witness for C1: in the compiled set `{"a" ↦ 3, "ab" ↦ 0}`, the
member `"ab"` looks up to its code 0. -/
theorem lookup_matches_compiled_set_witness :
    ([97, 98], 0) ∈ graphLang (some tAB) ∧
      LookupStringInFixedSet (some tAB) [97, 98] = (0 : Int) :=
  ⟨by decide,
    (lookup_matches_compiled_set (some tAB) [97, 98] (by decide)).1 0 (by decide)⟩

end DafsaSpec

namespace DafsaSpec

/-! ### Productivity: every state of a compiled DAFSA accepts something -/

mutual

/-- A productive node's compiled set is non-empty. -/
theorem productive_lang_ne_nil :
    ∀ t : DafsaNode, t.productive = true → t.lang ≠ []
  | .chain c next, h => by
    simp only [DafsaNode.productive] at h
    simpa [DafsaNode.lang] using productive_lang_ne_nil next h
  | .branch accept es, h => by
    simp only [DafsaNode.productive, Bool.and_eq_true, Bool.or_eq_true] at h
    match accept with
    | some k => simp [DafsaNode.lang]
    | none =>
      rcases h with ⟨hne, hall⟩
      rcases hne with hne | hne
      · simp [Option.isSome] at hne
      · have : es.lang ≠ [] := productive_edges_lang_ne_nil es hall
          (by simpa [Bool.not_eq_true'] using hne)
        simpa [DafsaNode.lang] using this

/-- A non-empty edge list of productive children contributes a
non-empty language. -/
theorem productive_edges_lang_ne_nil :
    ∀ es : EdgeList, es.allProductive = true → es.isNil = false →
      es.lang ≠ []
  | .nil, _, hn => by simp [EdgeList.isNil] at hn
  | .cons c child rest, hall, _ => by
    simp only [EdgeList.allProductive, Bool.and_eq_true] at hall
    have hc : child.lang ≠ [] := productive_lang_ne_nil child hall.1
    simp only [EdgeList.lang]
    intro hcon
    rcases List.append_eq_nil.mp hcon with ⟨h1, _⟩
    exact hc (List.map_eq_nil_iff.mp h1)

end

/-- A found edge of a productive edge list is productive. -/
theorem findEdge_productive_child :
    ∀ (es : EdgeList) (c : Nat) (child : DafsaNode),
      es.allProductive = true → findEdge es c = some child →
      child.productive = true
  | .nil, c, child, _, hf => by simp [findEdge] at hf
  | .cons c' ch rest, c, child, hall, hf => by
    simp only [EdgeList.allProductive, Bool.and_eq_true] at hall
    by_cases hcc : c = c'
    · simp only [findEdge, if_pos hcc] at hf
      cases hf
      exact hall.1
    · simp only [findEdge, if_neg hcc] at hf
      exact findEdge_productive_child rest c child hall.2 hf

/-- A successful step from a well-formed node lands on a well-formed
node. -/
theorem Advance_fst_wf (t : DafsaNode) (c : Nat) (u : DafsaNode)
    (hwf : t.wf = true) (h : (Advance (some t) c).1 = some u) :
    u.wf = true := by
  match t with
  | .chain ch next =>
    by_cases hcc : c = ch
    · simp only [Advance, if_pos hcc, Option.some.injEq] at h
      cases h
      simpa [DafsaNode.wf] using hwf
    · simp [Advance, hcc] at h
  | .branch a es =>
    cases hf : findEdge es c with
    | none => simp [Advance, hf] at h
    | some child =>
      simp only [Advance, hf, Option.some.injEq] at h
      cases h
      exact findEdge_wf_child es c u (by simpa [DafsaNode.wf] using hwf) hf

/-- A successful step from a productive node lands on a productive
node. -/
theorem Advance_fst_productive (t : DafsaNode) (c : Nat) (u : DafsaNode)
    (hpr : t.productive = true) (h : (Advance (some t) c).1 = some u) :
    u.productive = true := by
  match t with
  | .chain ch next =>
    by_cases hcc : c = ch
    · simp only [Advance, if_pos hcc, Option.some.injEq] at h
      cases h
      simpa [DafsaNode.productive] using hpr
    · simp [Advance, hcc] at h
  | .branch a es =>
    cases hf : findEdge es c with
    | none => simp [Advance, hf] at h
    | some child =>
      simp only [Advance, hf, Option.some.injEq] at h
      cases h
      simp only [DafsaNode.productive, Bool.and_eq_true] at hpr
      exact findEdge_productive_child es c u hpr.2 hf

/-- Well-formedness persists along any successful walk. -/
theorem runCursor_wf (p : List Nat) :
    ∀ (t u : DafsaNode), t.wf = true → runCursor (some t) p = some u →
      u.wf = true := by
  induction p with
  | nil =>
    intro t u hwf h
    cases h
    exact hwf
  | cons a p' ih =>
    intro t u hwf h
    simp only [runCursor] at h
    cases h2 : (Advance (some t) a).1 with
    | none =>
      rw [h2, runCursor_none] at h
      cases h
    | some t2 =>
      rw [h2] at h
      exact ih t2 u (Advance_fst_wf t a t2 hwf h2) h

/-- Productivity persists along any successful walk. -/
theorem runCursor_productive (p : List Nat) :
    ∀ (t u : DafsaNode), t.productive = true → runCursor (some t) p = some u →
      u.productive = true := by
  induction p with
  | nil =>
    intro t u hpr h
    cases h
    exact hpr
  | cons a p' ih =>
    intro t u hpr h
    simp only [runCursor] at h
    cases h2 : (Advance (some t) a).1 with
    | none =>
      rw [h2, runCursor_none] at h
      cases h
    | some t2 =>
      rw [h2] at h
      exact ih t2 u (Advance_fst_productive t a t2 hpr h2) h

/-! ### Viability: a successful step means a viable set member exists -/

/-- A successful step lifts members of the new state into the old
state's language. -/
theorem Advance_lang_lift (t : DafsaNode) (c : Nat) (u : DafsaNode)
    (h : Advance (some t) c = (some u, true)) :
    ∀ (w : List Nat) (k : Nat), (w, k) ∈ u.lang → (c :: w, k) ∈ t.lang := by
  intro w k hm
  match t with
  | .chain ch next =>
    by_cases hcc : c = ch
    · simp only [Advance, if_pos hcc, Prod.mk.injEq, Option.some.injEq] at h
      cases h.1
      subst hcc
      simp only [DafsaNode.lang, List.mem_map]
      exact ⟨(w, k), hm, rfl⟩
    · simp [Advance, hcc] at h
  | .branch a es =>
    cases hf : findEdge es c with
    | none => simp [Advance, hf] at h
    | some child =>
      simp only [Advance, hf, Prod.mk.injEq, Option.some.injEq] at h
      cases h.1
      have := findEdge_lang_lift es c u hf w k hm
      match a with
      | none => simpa [DafsaNode.lang] using this
      | some k' => simp [DafsaNode.lang, this]

/-- Walk soundness: a state reached by consuming `q` lifts its language
back to the root, with `q` prepended. -/
theorem runCursor_lang_lift (q : List Nat) :
    ∀ (t u : DafsaNode), runCursor (some t) q = some u →
      ∀ (w : List Nat) (k : Nat), (w, k) ∈ u.lang → (q ++ w, k) ∈ t.lang := by
  induction q with
  | nil =>
    intro t u h w k hm
    cases h
    simpa using hm
  | cons a q' ih =>
    intro t u h w k hm
    simp only [runCursor] at h
    rcases h2 : Advance (some t) a with ⟨cur2, b⟩
    cases b with
    | false =>
      have : (Advance (some t) a).1 = none := Advance_false_fst _ _ (by simp [h2])
      rw [this, runCursor_none] at h
      cases h
    | true =>
      rcases Advance_true_some (some t) a (by simp [h2]) with ⟨t2, heq⟩
      rw [heq] at h2
      cases h2
      rw [heq] at h
      simp only at h
      have hmem := ih t2 u h w k hm
      simpa using Advance_lang_lift t a t2 heq (q' ++ w) k hmem

/-- Appending one further character keeps a prefix: `xs ++ [a]` is a
prefix of `xs ++ a :: ys`. -/
theorem isPrefixOf_append_cons :
    ∀ (xs : List Nat) (a : Nat) (ys : List Nat),
      List.isPrefixOf (xs ++ [a]) (xs ++ a :: ys) = true
  | [], a, ys => by simp [List.isPrefixOf_cons₂]
  | x :: xs, a, ys => by
    simp [List.isPrefixOf_cons₂, isPrefixOf_append_cons xs a ys]

/-- Splitting a prefix test at a cons cell. -/
theorem isPrefixOf_cons_split (a : Nat) (xs w : List Nat)
    (h : List.isPrefixOf (a :: xs) w = true) :
    ∃ w', w = a :: w' ∧ List.isPrefixOf xs w' = true := by
  match w with
  | [] => simp at h
  | b :: w' =>
    rw [List.isPrefixOf_cons₂, Bool.and_eq_true, beq_iff_eq] at h
    exact ⟨w', by rw [h.1], h.2⟩

/-- The viability certificate extracted from a successful step: the
consumed sequence extended by the accepted character is a prefix of
some member of the compiled set. -/
theorem viable_of_advance_true (t : DafsaNode) (p : List Nat) (c : Nat)
    (hpr : t.productive = true)
    (h : (Advance (runCursor (some t) p) c).2 = true) :
    ∃ (w : List Nat) (k : Nat), (w, k) ∈ t.lang ∧
      List.isPrefixOf (p ++ [c]) w = true := by
  cases hr : runCursor (some t) p with
  | none =>
    rw [hr] at h
    simp [Advance] at h
  | some u =>
    rw [hr] at h
    rcases Advance_true_some (some u) c h with ⟨u', heq⟩
    have hpu' : u'.productive = true :=
      Advance_fst_productive u c u' (runCursor_productive p t u hpr hr)
        (by simp [heq])
    rcases List.exists_mem_of_ne_nil _ (productive_lang_ne_nil u' hpu')
      with ⟨⟨w0, k⟩, hm0⟩
    have hmu : (c :: w0, k) ∈ u.lang := Advance_lang_lift u c u' heq w0 k hm0
    have hmt : (p ++ c :: w0, k) ∈ t.lang := runCursor_lang_lift p t u hr _ k hmu
    exact ⟨p ++ c :: w0, k, hmt, isPrefixOf_append_cons p c w0⟩

/-- Determinism: a member of the compiled set extending the consumed
sequence forces the next step to succeed. -/
theorem advance_true_of_viable :
    ∀ (p : List Nat) (t : DafsaNode) (c : Nat) (w : List Nat) (k : Nat),
      t.wf = true → (w, k) ∈ t.lang →
      List.isPrefixOf (p ++ [c]) w = true →
      (Advance (runCursor (some t) p) c).2 = true := by
  intro p
  induction p with
  | nil =>
    intro t c w k hwf hm hpre
    rcases isPrefixOf_cons_split c [] w (by simpa using hpre) with ⟨w', hw, _⟩
    subst hw
    match t with
    | .chain ch next =>
      simp only [DafsaNode.lang, List.mem_map] at hm
      rcases hm with ⟨q, _, hq⟩
      have h1 := congrArg Prod.fst hq
      simp at h1
      simp [runCursor, Advance, h1.1.symm]
    | .branch a es =>
      have hm' : (c :: w', k) ∈ es.lang := by
        simp only [DafsaNode.lang, List.mem_append] at hm
        rcases hm with hm | hm
        · match a with
          | some k' => simp at hm
          | none => simp at hm
        · exact hm
      rcases hasChar_findEdge es c (hasChar_of_mem es c w' k hm') with ⟨child, hf⟩
      simp [runCursor, Advance, hf]
  | cons a p' ih =>
    intro t c w k hwf hm hpre
    rcases isPrefixOf_cons_split a (p' ++ [c]) w (by simpa using hpre)
      with ⟨w', hw, hpre'⟩
    subst hw
    match t with
    | .chain ch next =>
      simp only [DafsaNode.lang, List.mem_map] at hm
      rcases hm with ⟨q, hq, hqe⟩
      have h1 := congrArg Prod.fst hqe
      have h2 := congrArg Prod.snd hqe
      simp at h1 h2
      have hq' : q = (w', k) := Prod.ext h1.2 h2
      subst hq'
      have := ih next c w' k (by simpa [DafsaNode.wf] using hwf) hq hpre'
      simpa [runCursor, Advance, h1.1.symm] using this
    | .branch bacc es =>
      have hm' : (a :: w', k) ∈ es.lang := by
        simp only [DafsaNode.lang, List.mem_append] at hm
        rcases hm with hm | hm
        · match bacc with
          | some k' => simp at hm
          | none => simp at hm
        · exact hm
      rcases findEdge_lang_split es a w' k (by simpa [DafsaNode.wf] using hwf) hm'
        with ⟨child, hf, hmc⟩
      have := ih child c w' k
        (findEdge_wf_child es a child (by simpa [DafsaNode.wf] using hwf) hf)
        hmc hpre'
      simpa [runCursor, Advance, hf] using this

/-- The viability test in terms of set membership. -/
theorem hasPrefixIn_iff (t : DafsaNode) (s : List Nat) :
    hasPrefixIn t s = true ↔
      ∃ (w : List Nat) (k : Nat), (w, k) ∈ t.lang ∧
        List.isPrefixOf s w = true := by
  simp only [hasPrefixIn, List.any_eq_true, Prod.exists]

/-! ### C2: `Advance` succeeds exactly on viable prefixes -/

/-- C2.  For a cursor over a compiled graph that has consumed sequence
`p`, `Advance` with input `c` returns `true` exactly when `p ++ [c]` is
a prefix of at least one string of the compiled set (whether or not it
is itself a complete member); and whenever it returns `false` the
cursor becomes exhausted.  (Determinism and productivity of the
compiled graph are assumed, as compiled DAFSAs have no duplicate edges
and no dead states.) -/
theorem advance_iff_viable_prefix_in_set (t : DafsaNode) (p : List Nat)
    (c : Nat) (hwf : t.wf = true) (hpr : t.productive = true) :
    ((Advance (runCursor (some t) p) c).2 = true ↔
      hasPrefixIn t (p ++ [c]) = true) ∧
    ((Advance (runCursor (some t) p) c).2 = false →
      (Advance (runCursor (some t) p) c).1 = exhausted) := by
  constructor
  · constructor
    · intro h
      exact (hasPrefixIn_iff t (p ++ [c])).mpr (viable_of_advance_true t p c hpr h)
    · intro h
      rcases (hasPrefixIn_iff t (p ++ [c])).mp h with ⟨w, k, hm, hp⟩
      exact advance_true_of_viable p t c w k hwf hm hp
  · exact Advance_false_fst _ c

/-- Witness for C2: in the `{"a" ↦ 3, "ab" ↦ 0}` graph, after consuming
`"a"` the character `"b"` is accepted because `"ab"` is (a prefix of) a
member. -/
theorem advance_iff_viable_witness :
    (Advance (runCursor (some tAB) [97]) 98).2 = true :=
  (advance_iff_viable_prefix_in_set tAB [97] 98 (by decide) (by decide)).1.mpr
    (by decide)

/-! ### C7: the empty-input law -/

/-- C7.  `LookupStringInFixedSet` on the empty key returns the root's
accepting code when the empty string is a compiled member and
`kDafsaNotFound` otherwise; and `LookupSuffixInReversedSet` on an empty
host returns `(kDafsaNotFound, 0)` for either value of
`include_private`. -/
theorem empty_input_law (g : Graph) :
    (∀ k : Nat, ([], k) ∈ graphLang g →
      LookupStringInFixedSet g [] = (k : Int)) ∧
    ((∀ k : Nat, ([], k) ∉ graphLang g) →
      LookupStringInFixedSet g [] = kDafsaNotFound) ∧
    (∀ b : Bool, LookupSuffixInReversedSet g b [] = (kDafsaNotFound, 0)) := by
  refine ⟨?_, ?_, fun b => rfl⟩
  · intro k hm
    match g with
    | none => simp [graphLang] at hm
    | some (.chain ch next) =>
      simp only [graphLang, DafsaNode.lang, List.mem_map] at hm
      rcases hm with ⟨q, _, hq⟩
      have := congrArg Prod.fst hq
      simp at this
    | some (.branch a es) =>
      simp only [graphLang, DafsaNode.lang, List.mem_append] at hm
      rcases hm with hm | hm
      · match a with
        | some k' =>
          simp only [List.mem_singleton, Prod.mk.injEq] at hm
          simp [LookupStringInFixedSet, mkLookup, lookupGo,
            GetResultForCurrentSequence, hm.2]
        | none => simp at hm
      · exact absurd rfl (edge_lang_ne_nil es [] k hm)
  · intro hall
    match g with
    | none => rfl
    | some t =>
      rcases lookupGo_codomain [] (some t) with h | ⟨k, h⟩
      · exact h
      · exact absurd (lookupGo_sound [] t k h) (hall k)

/-- The compiled set `{"" ↦ 5}`: the root itself accepts. -/
def tEps : DafsaNode := .branch (some 5) .nil

/-- Witness for C7: a root-accepting graph reports code 5 on the empty
key; the `{"a","ab"}` graph, whose set lacks the empty string, reports
`kDafsaNotFound`; and the empty-host suffix lookup yields
`(kDafsaNotFound, 0)`. -/
theorem empty_input_law_witness :
    LookupStringInFixedSet (some tEps) [] = (5 : Int) ∧
      LookupStringInFixedSet (some tAB) [] = kDafsaNotFound ∧
      LookupSuffixInReversedSet (some tEps) true [] = (kDafsaNotFound, 0) :=
  ⟨(empty_input_law (some tEps)).1 5 (by decide),
    (empty_input_law (some tAB)).2.1 (by
      intro k hk
      have he : graphLang (some tAB) = [([97], 3), ([97, 98], 0)] := by decide
      rw [he] at hk
      simp at hk),
    (empty_input_law (some tEps)).2.2 true⟩

end DafsaSpec

namespace DafsaSpec

/-! ### The reversed-suffix walk characterized by its match list -/

/-- Reading `getD` through an `Option.or`: the left option wins when
present. -/
theorem or_getD {α : Type} (o2 o1 : Option α) (b : α) :
    (o2.or o1).getD b = o2.getD (o1.getD b) := by
  cases o2 <;> simp [Option.or]

/-- The suffix walk returns the last match of the private-filtered
match list, or the initial best when there is none. -/
theorem lookupSuffixGo_eq_matches (b : Bool) (rest : List Nat) :
    ∀ (cur : FixedSetIncrementalLookup) (k : Nat) (best : Int × Nat),
      lookupSuffixGo b cur rest k best =
        (((suffixMatchesGo cur rest k).filter
          (fun m => b || !hasPrivateBit m.1)).getLast?).getD best := by
  induction rest with
  | nil => intro cur k best; rfl
  | cons c rest' ih =>
    intro cur k best
    rcases hA : Advance cur c with ⟨cur2, ab⟩
    cases ab with
    | false => simp [lookupSuffixGo, suffixMatchesGo, hA]
    | true =>
      simp only [lookupSuffixGo, suffixMatchesGo, hA]
      rw [ih cur2 (k + 1)]
      rw [List.filter_append, List.getLast?_append, or_getD]
      congr 1
      by_cases hQ : boundaryOkRest rest' = true ∧
          GetResultForCurrentSequence cur2 ≠ kDafsaNotFound
      · rw [if_pos hQ]
        by_cases hP :
            (b || !hasPrivateBit (GetResultForCurrentSequence cur2)) = true
        · rw [if_pos ⟨hQ.1, hQ.2, by
            rcases Bool.or_eq_true _ _ |>.mp hP with hb | hp
            · exact Or.inl hb
            · exact Or.inr (Bool.not_eq_true' _ |>.mp hp)⟩]
          simp [List.filter, hP]
        · rw [if_neg (by
            intro hc
            rcases hc.2.2 with hb | hp
            · exact hP (by simp [hb])
            · exact hP (by simp [hp]))]
          simp only [List.filter]
          rw [Bool.not_eq_true] at hP
          rw [hP]
          rfl
      · rw [if_neg hQ, if_neg (fun hc => hQ ⟨hc.1, hc.2.1⟩)]
        rfl

/-- Taking `head?` after a `drop` is positional indexing. -/
theorem head?_drop : ∀ (l : List Nat) (n : Nat), (l.drop n).head? = l[n]?
  | l, 0 => by cases l <;> simp
  | [], n + 1 => by simp
  | c :: l', n + 1 => by simp [head?_drop l' n]

/-- Every match recorded by the reversed walk ends at the whole input
or just before a dot of the reversed input. -/
theorem suffixMatchesGo_boundary :
    ∀ (rest rev : List Nat) (k : Nat) (cur : FixedSetIncrementalLookup)
      (v : Int) (n : Nat),
      rev.drop k = rest → (v, n) ∈ suffixMatchesGo cur rest k →
      n = rev.length ∨ rev[n]? = some dotByte := by
  intro rest
  induction rest with
  | nil =>
    intro rev k cur v n _ hm
    simp [suffixMatchesGo] at hm
  | cons c rest' ih =>
    intro rev k cur v n hdrop hm
    have hk : k < rev.length := by
      by_contra hk
      rw [List.drop_eq_nil_iff.mpr (by omega)] at hdrop
      cases hdrop
    have hdrop' : rev.drop (k + 1) = rest' := by
      rw [← List.tail_drop, hdrop]
      rfl
    rcases hA : Advance cur c with ⟨cur2, ab⟩
    cases ab with
    | false => simp [suffixMatchesGo, hA] at hm
    | true =>
      simp only [suffixMatchesGo, hA, List.mem_append] at hm
      rcases hm with hm | hm
      · by_cases hQ : boundaryOkRest rest' = true ∧
            GetResultForCurrentSequence cur2 ≠ kDafsaNotFound
        · rw [if_pos hQ] at hm
          simp only [List.mem_singleton, Prod.mk.injEq] at hm
          rcases hm with ⟨_, hn⟩
          subst hn
          match rest', hQ.1 with
          | [], _ =>
            left
            have : rev.length ≤ k + 1 := List.drop_eq_nil_iff.mp hdrop'
            omega
          | c' :: r'', hb =>
            right
            have hc' : c' = dotByte := by
              simpa [boundaryOkRest] using hb
            rw [← head?_drop, hdrop', hc']
            rfl
        · rw [if_neg hQ] at hm
          cases hm
      · exact ih rev (k + 1) cur2 v n hdrop' hm

/-! ### C3: suffix matches are aligned to label boundaries -/

/-- C3.  `LookupSuffixInReversedSet` only reports matches aligned to
label boundaries: a reported best match of length `n` is either the
whole host (`n = host.length`) or is immediately preceded in `host` by
a dot separator. -/
theorem suffix_match_at_label_boundary (g : Graph) (b : Bool)
    (host : List Nat)
    (h : (LookupSuffixInReversedSet g b host).1 ≠ kDafsaNotFound) :
    (LookupSuffixInReversedSet g b host).2 = host.length ∨
      host[host.length - (LookupSuffixInReversedSet g b host).2 - 1]? =
        some dotByte := by
  have hchar : LookupSuffixInReversedSet g b host =
      (((suffixMatchesGo (mkLookup g) host.reverse 0).filter
        (fun m => b || !hasPrivateBit m.1)).getLast?).getD (kDafsaNotFound, 0) :=
    lookupSuffixGo_eq_matches b host.reverse (mkLookup g) 0 (kDafsaNotFound, 0)
  cases hL : ((suffixMatchesGo (mkLookup g) host.reverse 0).filter
      (fun m => b || !hasPrivateBit m.1)).getLast? with
  | none =>
    rw [hchar, hL] at h
    simp at h
  | some m =>
    rw [hchar, hL]
    have hmem : m ∈ (suffixMatchesGo (mkLookup g) host.reverse 0).filter
        (fun m => b || !hasPrivateBit m.1) := List.mem_of_getLast?_eq_some hL
    have hmem' : m ∈ suffixMatchesGo (mkLookup g) host.reverse 0 :=
      (List.mem_filter.mp hmem).1
    have hbd := suffixMatchesGo_boundary host.reverse host.reverse 0
      (mkLookup g) m.1 m.2 (by simp) (by simpa using hmem')
    rcases hbd with hbd | hbd
    · left
      simpa using hbd
    · right
      have hlt : m.2 < host.reverse.length := by
        by_contra hge
        rw [List.getElem?_eq_none (by omega)] at hbd
        cases hbd
      rw [List.getElem?_reverse (by simpa using hlt)] at hbd
      have hidx : host.length - 1 - m.2 = host.length - m.2 - 1 := by omega
      rw [hidx] at hbd
      simpa using hbd

/-- Witness for C3, with the spec's own examples: over the reversed set
`{"com" ↦ 0}`, the host `"foo.com"` matches with length 3 at a dot
boundary, and `"fooicom"` (no dot) yields `(kDafsaNotFound, 0)`. -/
theorem suffix_match_at_label_boundary_witness :
    (LookupSuffixInReversedSet (some gMoc) true fooComBytes).1 ≠
        kDafsaNotFound ∧
      ((LookupSuffixInReversedSet (some gMoc) true fooComBytes).2 =
          fooComBytes.length ∨
        fooComBytes[fooComBytes.length -
          (LookupSuffixInReversedSet (some gMoc) true fooComBytes).2 - 1]? =
          some dotByte) ∧
      LookupSuffixInReversedSet (some gMoc) true fooComBytes =
        (kDafsaFound, 3) ∧
      LookupSuffixInReversedSet (some gMoc) true fooIComBytes =
        (kDafsaNotFound, 0) :=
  ⟨by decide,
    suffix_match_at_label_boundary (some gMoc) true fooComBytes (by decide),
    by decide, by decide⟩

/-! ### C4: the private-exclusion law -/

/-- C4.  With `include_private = false`, `LookupSuffixInReversedSet`
never returns an entry carrying the private bit: its result is exactly
the last (= longest) non-private boundary-valid match along the walk,
if any — so a shorter non-private match found along the same walk is
still returned; with `include_private = true` the result is the last of
all boundary-valid matches, private ones included. -/
theorem private_exclusion (g : Graph) (host : List Nat) :
    ((LookupSuffixInReversedSet g false host).1 ≠ kDafsaNotFound →
      hasPrivateBit (LookupSuffixInReversedSet g false host).1 = false) ∧
    LookupSuffixInReversedSet g false host =
      (((suffixMatches g host).filter
        (fun m => !hasPrivateBit m.1)).getLast?).getD (kDafsaNotFound, 0) ∧
    LookupSuffixInReversedSet g true host =
      ((suffixMatches g host).getLast?).getD (kDafsaNotFound, 0) := by
  have h2 : LookupSuffixInReversedSet g false host =
      (((suffixMatches g host).filter
        (fun m => !hasPrivateBit m.1)).getLast?).getD (kDafsaNotFound, 0) := by
    have := lookupSuffixGo_eq_matches false host.reverse (mkLookup g) 0
      (kDafsaNotFound, 0)
    simpa [LookupSuffixInReversedSet, suffixMatches] using this
  refine ⟨?_, h2, ?_⟩
  · intro h
    cases hL : ((suffixMatches g host).filter
        (fun m => !hasPrivateBit m.1)).getLast? with
    | none =>
      rw [h2, hL] at h
      simp at h
    | some m =>
      rw [h2, hL]
      have hmem : m ∈ (suffixMatches g host).filter
          (fun m => !hasPrivateBit m.1) := List.mem_of_getLast?_eq_some hL
      have := (List.mem_filter.mp hmem).2
      simpa [Bool.not_eq_true'] using this
  · have := lookupSuffixGo_eq_matches true host.reverse (mkLookup g) 0
      (kDafsaNotFound, 0)
    simpa [LookupSuffixInReversedSet, suffixMatches] using this

/-- Witness for C4: over the reversed set
`{"com" ↦ 0, "foo.com" ↦ 4 (private)}` and host `"bar.foo.com"`, the
non-private walk returns the shorter non-private match `("com", 0)`
while the private-inclusive walk returns the private entry
`("foo.com", 4)`. -/
theorem private_exclusion_witness :
    hasPrivateBit
        (LookupSuffixInReversedSet (some gPriv) false barFooComBytes).1 =
      false ∧
    LookupSuffixInReversedSet (some gPriv) false barFooComBytes =
      (kDafsaFound, 3) ∧
    LookupSuffixInReversedSet (some gPriv) true barFooComBytes =
      (kDafsaPrivateRule, 7) :=
  ⟨(private_exclusion (some gPriv) barFooComBytes).1 (by decide),
    by decide, by decide⟩

end DafsaSpec
